import Mathlib

/-!
Verification of the TikTok daily processor pipeline (`src/main.py`) against its
natural-language specification.

The orchestration layer `main.py` is embedded directly.  Helper modules it
imports (`daily_processor`, `v35_enhancements`, `apify_fetcher`,
`discord_notify`) are not part of this repository's sources; where a claim
depends on them they are modelled from the spec, marked as such in their doc
comments.  DataFrames become lists of records; `drop_duplicates(subset=
['webVideoUrl'], keep='first')` becomes a first-occurrence deduplication on
the URL field; Python dicts with string keys become insertion-ordered
association lists.
-/

set_option maxHeartbeats 1000000

namespace TTPipeline

/-- A raw post record as fetched from the data source: a stable URL, author,
free text and non-negative engagement counters, plus elapsed hours since
creation (used for rate metrics). -/
structure RawRecord where
  webVideoUrl : String
  author : String
  text : String
  views : Nat
  likes : Nat
  comments : Nat
  shares : Nat
  ageHours : Nat
deriving Repr, DecidableEq

/-- The URL column of a list of records (the `webVideoUrl` Series). -/
def urls (rows : List RawRecord) : List String :=
  rows.map (fun r => r.webVideoUrl)

/-- Worker for first-occurrence deduplication by URL: `seen` holds the URLs
already emitted. -/
def dropDupAux (seen : List String) : List RawRecord → List RawRecord
  | [] => []
  | r :: rest =>
      if r.webVideoUrl ∈ seen then dropDupAux seen rest
      else r :: dropDupAux (r.webVideoUrl :: seen) rest

/-- Embeds `df.drop_duplicates(subset=['webVideoUrl'], keep='first')` from
`main.py` (used at lines 47, 65, 187, 250, 254): keep the first record for
each URL, discard later duplicates, preserve order. -/
def dropDuplicatesByUrl (rows : List RawRecord) : List RawRecord :=
  dropDupAux [] rows

theorem dropDupAux_urls_subset {rows : List RawRecord} {seen : List String}
    {u : String} (h : u ∈ urls (dropDupAux seen rows)) :
    u ∈ urls rows ∧ u ∉ seen := by
  induction rows generalizing seen with
  | nil => simp [dropDupAux, urls] at h
  | cons r rest ih =>
      by_cases hmem : r.webVideoUrl ∈ seen
      · simp only [dropDupAux, if_pos hmem] at h
        obtain ⟨h1, h2⟩ := ih h
        exact ⟨by simp [urls] at h1 ⊢; exact Or.inr h1, h2⟩
      · simp only [dropDupAux, if_neg hmem] at h
        simp only [urls, List.map_cons, List.mem_cons] at h
        rcases h with h | h
        · subst h
          exact ⟨by simp [urls], hmem⟩
        · obtain ⟨h1, h2⟩ := ih h
          simp only [List.mem_cons, not_or] at h2
          exact ⟨by simp [urls] at h1 ⊢; exact Or.inr h1, h2.2⟩

theorem dropDupAux_urls_nodup (rows : List RawRecord) (seen : List String) :
    (urls (dropDupAux seen rows)).Nodup := by
  induction rows generalizing seen with
  | nil => simp [dropDupAux, urls]
  | cons r rest ih =>
      by_cases hmem : r.webVideoUrl ∈ seen
      · simpa only [dropDupAux, if_pos hmem] using ih seen
      · simp only [dropDupAux, if_neg hmem, urls, List.map_cons, List.nodup_cons]
        refine ⟨fun hc => ?_, ih (r.webVideoUrl :: seen)⟩
        exact (dropDupAux_urls_subset hc).2 (List.mem_cons_self _ _)

theorem dropDupAux_urls_mem (rows : List RawRecord) (seen : List String)
    (u : String) :
    u ∈ urls (dropDupAux seen rows) ↔ u ∈ urls rows ∧ u ∉ seen := by
  constructor
  · exact dropDupAux_urls_subset
  · rintro ⟨h1, h2⟩
    induction rows generalizing seen with
    | nil => simp [urls] at h1
    | cons r rest ih =>
        simp only [urls, List.map_cons, List.mem_cons] at h1
        by_cases hmem : r.webVideoUrl ∈ seen
        · simp only [dropDupAux, if_pos hmem]
          rcases h1 with h1 | h1
          · exact absurd (h1 ▸ hmem) h2
          · exact ih seen h1 h2
        · simp only [dropDupAux, if_neg hmem]
          rcases h1 with h1 | h1
          · simp [urls, h1]
          · by_cases hu : u = r.webVideoUrl
            · simp [urls, hu]
            · have : u ∉ r.webVideoUrl :: seen := by
                simp only [List.mem_cons, not_or]; exact ⟨hu, h2⟩
              have := ih (r.webVideoUrl :: seen) h1 this
              simp [urls] at this ⊢
              exact Or.inr this

theorem dropDupAux_find? (rows : List RawRecord) (seen : List String)
    (u : String) (hu : u ∉ seen) :
    (dropDupAux seen rows).find? (fun r => r.webVideoUrl == u)
      = rows.find? (fun r => r.webVideoUrl == u) := by
  induction rows generalizing seen with
  | nil => simp [dropDupAux]
  | cons r rest ih =>
      by_cases hmem : r.webVideoUrl ∈ seen
      · have hne : (r.webVideoUrl == u) = false := by
          simp only [beq_eq_false_iff_ne, ne_eq]
          intro hc; exact hu (hc ▸ hmem)
        simp only [dropDupAux, if_pos hmem, List.find?_cons, hne]
        exact ih seen hu
      · simp only [dropDupAux, if_neg hmem, List.find?_cons]
        by_cases heq : (r.webVideoUrl == u) = true
        · simp [heq]
        · simp only [Bool.not_eq_true] at heq
          simp only [heq]
          have : u ∉ r.webVideoUrl :: seen := by
            simp only [List.mem_cons, not_or]
            refine ⟨fun hc => ?_, hu⟩
            simp [beq_eq_false_iff_ne] at heq
            exact heq hc.symm
          exact ih _ this

theorem countP_url_eq_count (rows : List RawRecord) (u : String) :
    rows.countP (fun r => r.webVideoUrl == u) = (urls rows).count u := by
  induction rows with
  | nil => simp [urls]
  | cons r rest ih =>
      simp only [List.countP_cons, urls, List.map_cons, List.count_cons] at *
      rw [ih]

/-- C1: normalization deduplicates by URL keeping the first occurrence: the
output has no repeated URL, it covers exactly the URLs of the input, each
input URL occurs exactly once, and the surviving record for each URL is the
first input record carrying it (so its engagement counters are the first
occurrence's values). -/
theorem dedup_first_seen_wins (rows : List RawRecord) :
    (urls (dropDuplicatesByUrl rows)).Nodup ∧
    (∀ u, u ∈ urls (dropDuplicatesByUrl rows) ↔ u ∈ urls rows) ∧
    (∀ u, u ∈ urls rows →
      (dropDuplicatesByUrl rows).countP (fun r => r.webVideoUrl == u) = 1) ∧
    (∀ u, (dropDuplicatesByUrl rows).find? (fun r => r.webVideoUrl == u)
            = rows.find? (fun r => r.webVideoUrl == u)) := by
  refine ⟨dropDupAux_urls_nodup rows [], fun u => ?_, fun u hu => ?_, fun u => ?_⟩
  · rw [dropDuplicatesByUrl, dropDupAux_urls_mem]
    simp
  · rw [countP_url_eq_count]
    refine List.count_eq_one_of_mem (dropDupAux_urls_nodup rows []) ?_
    rw [dropDuplicatesByUrl, dropDupAux_urls_mem]
    exact ⟨hu, by simp⟩
  · exact dropDupAux_find? rows [] u (by simp)

/-- The discrete status labels assigned by the Status Classifier. -/
inductive Status where
  | NEW
  | URGENT
  | HIGH
  | WATCH
  | SPIKING
  | STABLE
deriving Repr, DecidableEq

/-- Cross-market tags attached to the `Market` column. -/
inductive Market where
  | BOTH
  | US_ONLY
  | UK_ONLY
  | SINGLE
deriving Repr, DecidableEq

/-- Derived engagement metrics attached to a record. -/
structure Metrics where
  engagementPerMille : Nat
  viewsPerHour : Nat
deriving Repr, DecidableEq

/-- Modelled from the spec: the per-record metric derivation inside
`daily_processor.calculate_metrics` (module not in `src/`): engagement
metrics computed deterministically from the raw counters and the elapsed
time since post creation. -/
def computeMetrics (r : RawRecord) : Metrics :=
  { engagementPerMille := (r.likes + r.comments + r.shares) * 1000 / max 1 r.views
    viewsPerHour := r.views / max 1 r.ageHours }

/-- Modelled from the spec: `daily_processor.calculate_metrics` (module not
in `src/`): attaches the derived metrics to every record of the frame, a
pure per-row transformation. -/
def calculate_metrics (rows : List RawRecord) : List (RawRecord × Metrics) :=
  rows.map (fun r => (r, computeMetrics r))

/-- Modelled from the spec: the threshold comparison inside
`daily_processor.calculate_status` (module not in `src/`) for a record whose
URL has a match in yesterday's cache.  The exact thresholds are configurable
policy; representative values are used, ordered most severe first. -/
def classifyDelta (y today : RawRecord) : Status :=
  let growth : Int := (today.views : Int) - (y.views : Int)
  let rate : Int := growth * 100 / max 1 (y.views : Int)
  if rate ≥ 300 then Status.URGENT
  else if rate ≥ 150 then Status.HIGH
  else if rate ≥ 75 then Status.SPIKING
  else if rate ≥ 30 then Status.WATCH
  else Status.STABLE

/-- Modelled from the spec: the per-record core of
`daily_processor.calculate_status` (module not in `src/`): look up today's
URL in yesterday's cache; absent → NEW, present → threshold classification
of the metric delta.  A missing cache is the empty list, on which every
lookup fails. -/
def classifyStatus (yesterday : List RawRecord) (today : RawRecord) : Status :=
  match yesterday.find? (fun y => y.webVideoUrl == today.webVideoUrl) with
  | none => Status.NEW
  | some y => classifyDelta y today

/-- Modelled from the spec: `daily_processor.calculate_status` (module not
in `src/`) applied to a whole frame, as called at `main.py` lines 53, 70
and 209: attaches a status to every row, without mutating the cache. -/
def calculate_status (today : List RawRecord) (yesterday : List RawRecord) :
    List (RawRecord × Status) :=
  today.map (fun r => (r, classifyStatus yesterday r))

/-- Modelled from the spec: `daily_processor.get_author_name` (module not in
`src/`): reads the author identity off the row. -/
def get_author_name (r : RawRecord) : String := r.author

/-- Modelled from the spec: `daily_processor.detect_ai` (module not in
`src/`): a pure classification of the text into an AI-content category. -/
def detect_ai (t : String) : String :=
  if t.toList.contains '#' then "AI" else "ORGANIC"

/-- Modelled from the spec: `daily_processor.calculate_build_now` (module
not in `src/`): act-now decision from the status severity. -/
def calculate_build_now (s : Status) : Bool :=
  s == Status.URGENT || s == Status.HIGH

/-- A fully normalized, tagged record as built per market inside
`run_v35_enhancements` (`main.py` lines 46-77). -/
structure EnhRecord where
  post : RawRecord
  metrics : Metrics
  author : String
  aiCategory : String
  status : Status
  buildNow : Bool
  market : Market
deriving Repr, DecidableEq

/-- One row of the per-market enhancement frame: derived columns of
`main.py` lines 48-59 (metrics, author, AI category, status, BUILD_NOW, and
the cross-market `Market` tag computed against the other market's URL
set). -/
def enhanceRecord (otherUrls : List String) (yesterday : List RawRecord)
    (single : Market) (r : RawRecord) : EnhRecord :=
  { post := r
    metrics := computeMetrics r
    author := get_author_name r
    aiCategory := detect_ai r.text
    status := classifyStatus yesterday r
    buildNow := calculate_build_now (classifyStatus yesterday r)
    market := if r.webVideoUrl ∈ otherUrls then Market.BOTH else single }

/-- The per-market block of `run_v35_enhancements` (`main.py` lines 43-77):
an empty market stays an empty frame; otherwise dedup by URL first-wins,
then attach the derived columns.  `single` is the single-market tag (US
ONLY resp. UK ONLY) and `other` the other market's raw data, whose URL set
drives the BOTH tag. -/
def enhanceRows (own other : List RawRecord) (yesterday : List RawRecord)
    (single : Market) : List EnhRecord :=
  if own.isEmpty then []
  else (dropDuplicatesByUrl own).map (enhanceRecord (urls other) yesterday single)

theorem mem_enhanceRows {own other yesterday : List RawRecord}
    {single : Market} {e : EnhRecord}
    (h : e ∈ enhanceRows own other yesterday single) :
    e.post ∈ dropDuplicatesByUrl own ∧
    e = enhanceRecord (urls other) yesterday single e.post := by
  unfold enhanceRows at h
  by_cases hown : own.isEmpty
  · simp [hown] at h
  · have hown' : own.isEmpty = false := by simpa using hown
    simp only [hown', Bool.false_eq_true, if_false, List.mem_map] at h
    obtain ⟨r0, hr0, he⟩ := h
    subst he
    exact ⟨hr0, rfl⟩

theorem enhanceRows_exists {own : List RawRecord}
    (other yesterday : List RawRecord) (single : Market) {u : String}
    (hu : u ∈ urls own) :
    ∃ e ∈ enhanceRows own other yesterday single, e.post.webVideoUrl = u := by
  have hne : ¬ own.isEmpty := by
    cases own with
    | nil => simp [urls] at hu
    | cons a l => simp
  have hmem : u ∈ urls (dropDuplicatesByUrl own) := by
    rw [dropDuplicatesByUrl, dropDupAux_urls_mem]
    exact ⟨hu, by simp⟩
  simp only [urls, List.mem_map] at hmem
  obtain ⟨r0, hr0, hr0u⟩ := hmem
  refine ⟨enhanceRecord (urls other) yesterday single r0, ?_, hr0u⟩
  unfold enhanceRows
  have hne' : own.isEmpty = false := by simpa using hne
  simp only [hne', Bool.false_eq_true, if_false, List.mem_map]
  exact ⟨r0, hr0, rfl⟩

theorem enhanceRows_market {own other yesterday : List RawRecord}
    {single : Market} {e : EnhRecord}
    (h : e ∈ enhanceRows own other yesterday single) :
    e.market = if e.post.webVideoUrl ∈ urls other then Market.BOTH else single := by
  obtain ⟨-, he⟩ := mem_enhanceRows h
  conv_lhs => rw [he]
  rfl

theorem enhanceRows_rec_urls {own other yesterday : List RawRecord}
    {single : Market} {e : EnhRecord}
    (h : e ∈ enhanceRows own other yesterday single) :
    e.post.webVideoUrl ∈ urls own := by
  obtain ⟨hrec, -⟩ := mem_enhanceRows h
  have : e.post.webVideoUrl ∈ urls (dropDuplicatesByUrl own) := by
    simp only [urls, List.mem_map]
    exact ⟨e.post, hrec, rfl⟩
  rw [dropDuplicatesByUrl, dropDupAux_urls_mem] at this
  exact this.1

/-- The US enhancement frame of `run_v35_enhancements` (`main.py` lines
46-62): dedup of `us_data`, derived columns, Market tag against `uk_data`'s
URL set. -/
def enhanceUS (us_data uk_data yesterday_us : List RawRecord) : List EnhRecord :=
  enhanceRows us_data uk_data yesterday_us Market.US_ONLY

/-- The UK enhancement frame of `run_v35_enhancements` (`main.py` lines
64-77): dedup of `uk_data`, derived columns, Market tag against `us_data`'s
URL set. -/
def enhanceUK (uk_data us_data yesterday_uk : List RawRecord) : List EnhRecord :=
  enhanceRows uk_data us_data yesterday_uk Market.UK_ONLY

theorem enhanceRows_length (own other yesterday : List RawRecord)
    (single : Market) :
    (enhanceRows own other yesterday single).length
      = (dropDuplicatesByUrl own).length := by
  unfold enhanceRows
  cases own with
  | nil => simp [dropDuplicatesByUrl, dropDupAux]
  | cons a l => simp

theorem market_both_iff {own other yesterday : List RawRecord}
    {single : Market} (hsingle : single ≠ Market.BOTH) {e : EnhRecord}
    (he : e ∈ enhanceRows own other yesterday single) :
    e.market = Market.BOTH ↔ e.post.webVideoUrl ∈ urls other := by
  rw [enhanceRows_market he]
  by_cases h : e.post.webVideoUrl ∈ urls other
  · simp [h]
  · simp [h, hsingle]

/-- C2: a today-record whose URL has no match in yesterday's cache is
classified NEW, whatever its metric values; an entirely absent cache is the
empty list, for which the hypothesis holds vacuously.  The record's
(record, NEW) row is exactly what `calculate_status` emits for it. -/
theorem status_new_when_absent (today yesterday : List RawRecord)
    (r : RawRecord) (hr : r ∈ today)
    (habs : ∀ y ∈ yesterday, y.webVideoUrl ≠ r.webVideoUrl) :
    classifyStatus yesterday r = Status.NEW ∧
    (r, Status.NEW) ∈ calculate_status today yesterday := by
  have hfind : yesterday.find? (fun y => y.webVideoUrl == r.webVideoUrl)
      = none := by
    rw [List.find?_eq_none]
    intro y hy
    simpa using habs y hy
  have hst : classifyStatus yesterday r = Status.NEW := by
    unfold classifyStatus
    rw [hfind]
  refine ⟨hst, ?_⟩
  unfold calculate_status
  rw [List.mem_map]
  exact ⟨r, hr, by rw [hst]⟩

/-- C3: cross-market tagging is symmetric.  If a URL occurs in both
markets' normalized enhancement frames then every US row and every UK row
for it is tagged BOTH; and a URL has a BOTH-tagged row in the US frame iff
it has one in the UK frame. -/
theorem cross_market_symmetric
    (us_data uk_data yesterday_us yesterday_uk : List RawRecord)
    (u : String) :
    ((∃ e ∈ enhanceUS us_data uk_data yesterday_us, e.post.webVideoUrl = u) →
     (∃ e ∈ enhanceUK uk_data us_data yesterday_uk, e.post.webVideoUrl = u) →
       (∀ e ∈ enhanceUS us_data uk_data yesterday_us,
          e.post.webVideoUrl = u → e.market = Market.BOTH) ∧
       (∀ e ∈ enhanceUK uk_data us_data yesterday_uk,
          e.post.webVideoUrl = u → e.market = Market.BOTH)) ∧
    ((∃ e ∈ enhanceUS us_data uk_data yesterday_us,
        e.post.webVideoUrl = u ∧ e.market = Market.BOTH) ↔
     (∃ e ∈ enhanceUK uk_data us_data yesterday_uk,
        e.post.webVideoUrl = u ∧ e.market = Market.BOTH)) := by
  unfold enhanceUS enhanceUK
  constructor
  · rintro ⟨eUS, hUS, hUSu⟩ ⟨eUK, hUK, hUKu⟩
    have huUS : u ∈ urls us_data := hUSu ▸ enhanceRows_rec_urls hUS
    have huUK : u ∈ urls uk_data := hUKu ▸ enhanceRows_rec_urls hUK
    constructor
    · intro e he heu
      rw [market_both_iff (by decide) he, heu]
      exact huUK
    · intro e he heu
      rw [market_both_iff (by decide) he, heu]
      exact huUS
  · constructor
    · rintro ⟨e, he, heu, hb⟩
      have huUK : u ∈ urls uk_data :=
        heu ▸ (market_both_iff (by decide) he).mp hb
      have huUS : u ∈ urls us_data := heu ▸ enhanceRows_rec_urls he
      obtain ⟨e', he', he'u⟩ :=
        enhanceRows_exists us_data yesterday_uk Market.UK_ONLY huUK
      refine ⟨e', he', he'u, ?_⟩
      rw [market_both_iff (by decide) he', he'u]
      exact huUS
    · rintro ⟨e, he, heu, hb⟩
      have huUS : u ∈ urls us_data :=
        heu ▸ (market_both_iff (by decide) he).mp hb
      have huUK : u ∈ urls uk_data := heu ▸ enhanceRows_rec_urls he
      obtain ⟨e', he', he'u⟩ :=
        enhanceRows_exists uk_data yesterday_us Market.US_ONLY huUS
      refine ⟨e', he', he'u, ?_⟩
      rw [market_both_iff (by decide) he', he'u]
      exact huUK

/-- C6: when one market's raw data is entirely absent, every record in the
other market's enhancement frame is tagged with that market's single tag
(never BOTH), the frame is still fully produced (one row per unique URL),
and the absent market's frame is empty. -/
theorem single_market_when_other_absent
    (us_data uk_data yesterday_us yesterday_uk : List RawRecord) :
    (∀ e ∈ enhanceUS us_data [] yesterday_us,
        e.market = Market.US_ONLY ∧ e.market ≠ Market.BOTH) ∧
    (∀ e ∈ enhanceUK uk_data [] yesterday_uk,
        e.market = Market.UK_ONLY ∧ e.market ≠ Market.BOTH) ∧
    (enhanceUS us_data [] yesterday_us).length
      = (dropDuplicatesByUrl us_data).length ∧
    (enhanceUK uk_data [] yesterday_uk).length
      = (dropDuplicatesByUrl uk_data).length ∧
    enhanceUS [] uk_data yesterday_us = [] ∧
    enhanceUK [] us_data yesterday_uk = [] := by
  unfold enhanceUS enhanceUK
  refine ⟨fun e he => ?_, fun e he => ?_,
    enhanceRows_length _ _ _ _, enhanceRows_length _ _ _ _, rfl, rfl⟩
  · have := enhanceRows_market he
    simp only [urls, List.map_nil, List.not_mem_nil, if_false] at this
    exact ⟨this, by rw [this]; decide⟩
  · have := enhanceRows_market he
    simp only [urls, List.map_nil, List.not_mem_nil, if_false] at this
    exact ⟨this, by rw [this]; decide⟩

/-- A sample US record used to instantiate theorems with hypotheses. -/
def sampleA : RawRecord :=
  { webVideoUrl := "u1", author := "alice", text := "hello"
    views := 5000, likes := 40, comments := 3, shares := 2, ageHours := 10 }

/-- A sample UK record sharing `sampleA`'s URL but with different counters. -/
def sampleB : RawRecord :=
  { webVideoUrl := "u1", author := "bob", text := "hi"
    views := 900, likes := 7, comments := 1, shares := 0, ageHours := 4 }

/-- A sample record with a URL of its own. -/
def sampleC : RawRecord :=
  { webVideoUrl := "u2", author := "carol", text := "yo"
    views := 10, likes := 0, comments := 0, shares := 0, ageHours := 1 }

/-- Witness for C2 at a concrete input: with an empty (absent) yesterday
cache, `sampleA` is classified NEW. -/
theorem status_new_when_absent_witness :
    classifyStatus [] sampleA = Status.NEW ∧
    (sampleA, Status.NEW) ∈ calculate_status [sampleA] [] :=
  status_new_when_absent [sampleA] [] sampleA (by decide)
    (by intro y hy; simp at hy)

/-- Witness for C3 at a concrete input: `sampleA` (US) and `sampleB` (UK)
share URL "u1", so both frames tag it BOTH. -/
theorem cross_market_symmetric_witness :
    (∀ e ∈ enhanceUS [sampleA] [sampleB] [],
        e.post.webVideoUrl = "u1" → e.market = Market.BOTH) ∧
    (∀ e ∈ enhanceUK [sampleB] [sampleA] [],
        e.post.webVideoUrl = "u1" → e.market = Market.BOTH) :=
  (cross_market_symmetric [sampleA] [sampleB] [] [] "u1").1
    (by exact ⟨enhanceRecord (urls [sampleB]) [] Market.US_ONLY sampleA,
          by decide, by decide⟩)
    (by exact ⟨enhanceRecord (urls [sampleA]) [] Market.UK_ONLY sampleB,
          by decide, by decide⟩)

/-- Witness for C6 at a concrete input: with UK data absent, `sampleA`'s US
row is tagged US ONLY. -/
theorem single_market_when_other_absent_witness :
    (enhanceRecord (urls []) [] Market.US_ONLY sampleA).market
        = Market.US_ONLY ∧
    (enhanceRecord (urls []) [] Market.US_ONLY sampleA).market
        ≠ Market.BOTH :=
  (single_market_when_other_absent [sampleA] [] [] []).1 _ (by decide)

/-- Python-dict lookup on an insertion-ordered association list. -/
def dictGet {β : Type} (m : List (String × β)) (k : String) : Option β :=
  match m with
  | [] => none
  | p :: rest => if p.1 = k then some p.2 else dictGet rest k

/-- Python-dict assignment `m[k] = v` on an insertion-ordered association
list: overwrite in place when the key exists, append otherwise. -/
def dictSet {β : Type} (m : List (String × β)) (k : String) (v : β) :
    List (String × β) :=
  if m.any (fun p => p.1 = k) then
    m.map (fun p => if p.1 = k then (k, v) else p)
  else m ++ [(k, v)]

/-- Per-URL persisted state in the velocity streak cache: consecutive-day
acceleration count, last-seen day and last velocity value. -/
structure StreakEntry where
  days : Nat
  lastSeen : Nat
  lastVelocity : Int
deriving Repr, DecidableEq

/-- Modelled from the spec: the retention purge of the streak cache in
`v35_enhancements.generate_daily_briefing` (module not in `src/`): at run
start, entries whose last-seen day is older than the retention window are
dropped. -/
def purgeStale (retention today : Nat)
    (cache : List (String × StreakEntry)) : List (String × StreakEntry) :=
  cache.filter (fun p => today - p.2.lastSeen ≤ retention)

/-- Modelled from the spec: the per-record streak update in
`v35_enhancements.generate_daily_briefing` (module not in `src/`): an
accelerating record increments its entry's day-count (creating it at 1 when
absent) and refreshes last-seen and last velocity; a non-accelerating
record resets the day-count of an existing entry to zero without deleting
it, and creates nothing when absent. -/
def streakUpdate (today : Nat) (vel : Int) (accelerating : Bool)
    (cache : List (String × StreakEntry)) (url : String) :
    List (String × StreakEntry) :=
  match dictGet cache url with
  | some e =>
      if accelerating then
        dictSet cache url
          { days := e.days + 1, lastSeen := today, lastVelocity := vel }
      else
        dictSet cache url { e with days := 0 }
  | none =>
      if accelerating then
        cache ++ [(url, { days := 1, lastSeen := today, lastVelocity := vel })]
      else cache

/-- Modelled from the spec: one pipeline run's effect on the streak cache
for a single tracked URL: purge stale entries, then apply the day's
update. -/
def streakRun (retention today : Nat) (vel : Int) (accelerating : Bool)
    (url : String) (cache : List (String × StreakEntry)) :
    List (String × StreakEntry) :=
  streakUpdate today vel accelerating (purgeStale retention today cache) url

/-- A sequence of consecutive daily runs for one URL, one acceleration flag
per day, run dates increasing by one. -/
def streakRuns (retention : Nat) (vel : Int) (url : String) :
    Nat → List Bool → List (String × StreakEntry) →
      List (String × StreakEntry)
  | _, [], cache => cache
  | day, f :: fs, cache =>
      streakRuns retention vel url (day + 1) fs
        (streakRun retention day vel f url cache)

theorem streakRuns_true_singleton (retention : Nat) (vel : Int)
    (url : String) (hret : 1 ≤ retention) :
    ∀ (n prev d : Nat) (v : Int),
    streakRuns retention vel url (prev + 1) (List.replicate n true)
        [(url, ⟨d, prev, v⟩)]
      = [(url, ⟨d + n, prev + n, if n = 0 then v else vel⟩)] := by
  intro n
  induction n with
  | zero => intro prev d v; simp [streakRuns]
  | succ m ih =>
      intro prev d v
      rw [List.replicate_succ]
      show streakRuns retention vel url (prev + 1 + 1) (List.replicate m true)
        (streakRun retention (prev + 1) vel true url [(url, ⟨d, prev, v⟩)])
        = _
      have hkeep : prev + 1 - prev ≤ retention := by omega
      have hkeep' : prev + 1 ≤ retention + prev := by omega
      have hrun : streakRun retention (prev + 1) vel true url
          [(url, ⟨d, prev, v⟩)] = [(url, ⟨d + 1, prev + 1, vel⟩)] := by
        simp [streakRun, purgeStale, hkeep, hkeep', streakUpdate, dictGet,
          dictSet]
      rw [hrun, ih (prev + 1) (d + 1) vel]
      have h1 : d + 1 + m = d + (m + 1) := by omega
      have h2 : prev + 1 + m = prev + (m + 1) := by omega
      simp [h1, h2]

theorem streakRuns_append (retention : Nat) (vel : Int) (url : String) :
    ∀ (l1 l2 : List Bool) (day : Nat) (cache : List (String × StreakEntry)),
    streakRuns retention vel url day (l1 ++ l2) cache
      = streakRuns retention vel url (day + l1.length) l2
          (streakRuns retention vel url day l1 cache) := by
  intro l1
  induction l1 with
  | nil => intro l2 day cache; simp [streakRuns]
  | cons f fs ih =>
      intro l2 day cache
      show streakRuns retention vel url (day + 1) (fs ++ l2) _ = _
      rw [ih]
      have : day + 1 + fs.length = day + (fs.length + 1) := by omega
      simp [this, streakRuns]

/-- C7: starting from an empty streak cache, a URL that accelerates on N
consecutive runs (N ≥ 1, retention window ≥ 1 day) ends with a streak
entry whose day-count is exactly N; one further run on which it does not
accelerate leaves the entry present with day-count reset to 0. -/
theorem streak_counts_consecutive (retention N day0 : Nat) (vel : Int)
    (url : String) (hN : 1 ≤ N) (hret : 1 ≤ retention) :
    (∃ e, dictGet (streakRuns retention vel url day0
            (List.replicate N true) []) url = some e ∧ e.days = N) ∧
    (∃ e, dictGet (streakRuns retention vel url day0
            (List.replicate N true ++ [false]) []) url = some e ∧
          e.days = 0) := by
  obtain ⟨m, rfl⟩ : ∃ m, N = m + 1 := ⟨N - 1, by omega⟩
  have hfirst : streakRun retention day0 vel true url []
      = [(url, ⟨1, day0, vel⟩)] := by
    simp [streakRun, purgeStale, streakUpdate, dictGet]
  have hN : streakRuns retention vel url day0
      (List.replicate (m + 1) true) [] = [(url, ⟨m + 1, day0 + m, vel⟩)] := by
    rw [List.replicate_succ]
    show streakRuns retention vel url (day0 + 1) (List.replicate m true)
      (streakRun retention day0 vel true url []) = _
    rw [hfirst, streakRuns_true_singleton retention vel url hret m day0 1 vel]
    have h1 : 1 + m = m + 1 := by omega
    simp [h1]
  constructor
  · exact ⟨⟨m + 1, day0 + m, vel⟩, by rw [hN]; simp [dictGet], rfl⟩
  · rw [streakRuns_append, hN]
    have hlen : day0 + (List.replicate (m + 1) true).length
        = day0 + m + 1 := by simp; omega
    rw [hlen]
    have hkeep : day0 + m + 1 - (day0 + m) ≤ retention := by omega
    have hkeep' : day0 + m + 1 ≤ retention + (day0 + m) := by omega
    have hlast : streakRun retention (day0 + m + 1) vel false url
        [(url, ⟨m + 1, day0 + m, vel⟩)]
        = [(url, ⟨0, day0 + m, vel⟩)] := by
      simp [streakRun, purgeStale, hkeep, hkeep', streakUpdate, dictGet,
        dictSet]
    show (∃ e, dictGet (streakRuns retention vel url (day0 + m + 1 + 1) []
        (streakRun retention (day0 + m + 1) vel false url
          [(url, ⟨m + 1, day0 + m, vel⟩)])) url = some e ∧ e.days = 0)
    rw [hlast]
    exact ⟨⟨0, day0 + m, vel⟩, by simp [streakRuns, dictGet], rfl⟩

/-- Witness for C7 at a concrete input: two accelerating runs give a streak
of 2; a third non-accelerating run resets it to 0 with the entry kept. -/
theorem streak_counts_consecutive_witness :
    (∃ e, dictGet (streakRuns 1 7 "u1" 0 (List.replicate 2 true) []) "u1"
        = some e ∧ e.days = 2) ∧
    (∃ e, dictGet (streakRuns 1 7 "u1" 0
        (List.replicate 2 true ++ [false]) []) "u1" = some e ∧ e.days = 0) :=
  streak_counts_consecutive 1 2 0 7 "u1" (by decide) (by decide)

/-- Modelled from the spec: `daily_processor.process_data` (module not in
`src/`): the standard v3.3.0 processing stage.  Each market is normalized
and classified against its cache, and the PipelineStats mapping (ownership
split plus per-status counts) is produced for the Notifier. -/
def process_data (us_data uk_data yesterday_us yesterday_uk : List RawRecord)
    (operators : List String) : List (String × Nat) :=
  let all := calculate_status (dropDuplicatesByUrl us_data) yesterday_us
          ++ calculate_status (dropDuplicatesByUrl uk_data) yesterday_uk
  [("your_posts", all.countP (fun p => operators.contains p.1.author)),
   ("competitor", all.countP (fun p => !operators.contains p.1.author)),
   ("urgent", all.countP (fun p => p.2 == Status.URGENT)),
   ("high", all.countP (fun p => p.2 == Status.HIGH)),
   ("watch", all.countP (fun p => p.2 == Status.WATCH)),
   ("spiking", all.countP (fun p => p.2 == Status.SPIKING))]

/-- The exception boundary of `run_v35_enhancements` (`main.py` lines 33-38
and 87-112).  `importOk` is the availability of the `v35_enhancements`
module (the `ImportError` branch); `integrate` is the outcome of the
external `integrate_with_daily_processor` call, `Except.error` standing for
a raised exception.  Either failure is caught and yields the empty file
dict. -/
def run_v35_enhancements (importOk : Bool)
    (integrate : Except String (List (String × String))) :
    List (String × String) :=
  if !importOk then []
  else
    match integrate with
    | Except.ok files => files
    | Except.error _ => []

/-- A row of the combined US+UK briefing frame (`main.py` lines 186-211). -/
structure CombinedRecord where
  post : RawRecord
  metrics : Metrics
  author : String
  aiCategory : String
  market : Market
  status : Status
deriving Repr, DecidableEq

/-- One row's derived columns in the briefing frame (`main.py` lines
188-211): metrics, author, AI category, BOTH when the URL is in the
intersection of both markets' URL sets else SINGLE, and status against the
concatenated yesterday caches. -/
def combinedRecord (usUrls ukUrls : List String)
    (yesterday : List RawRecord) (r : RawRecord) : CombinedRecord :=
  { post := r
    metrics := computeMetrics r
    author := get_author_name r
    aiCategory := detect_ai r.text
    market := if r.webVideoUrl ∈ usUrls ∧ r.webVideoUrl ∈ ukUrls
              then Market.BOTH else Market.SINGLE
    status := classifyStatus yesterday r }

/-- The combined-frame construction of the briefing stage (`main.py` lines
178-211): concatenate the US data before the UK data, deduplicate by URL
keeping the first occurrence, then derive the columns.  An entirely empty
concatenation yields no frame (the `len(combined_df) > 0` guard). -/
def combinedBriefing (us_data uk_data yesterday_us yesterday_uk :
    List RawRecord) : List CombinedRecord :=
  if (us_data ++ uk_data).isEmpty then []
  else
    (dropDuplicatesByUrl (us_data ++ uk_data)).map
      (combinedRecord (urls us_data) (urls uk_data)
        (yesterday_us ++ yesterday_uk))

/-- The observable outputs of one completed pipeline run: the stats mapping,
the enhanced-file dict, whether the briefing was appended, the two cached
snapshots and the mapping handed to the Notifier. -/
structure RunOutputs where
  stats : List (String × Nat)
  enhanced_files : List (String × String)
  briefingAppended : Bool
  savedUS : List (RawRecord × Metrics)
  savedUK : List (RawRecord × Metrics)
  notified : List (String × Nat)
deriving Repr, DecidableEq

/-- Outcome of a pipeline run: `fatal n` models `sys.exit(n)`. -/
inductive RunResult where
  | fatal : Nat → RunResult
  | completed : RunOutputs → RunResult
deriving Repr, DecidableEq

/-- Embeds `main()` (`main.py` lines 115-277).  Fetched data and yesterday's
caches are inputs (an absent cache is the empty list); `importOk`,
`integrate` and `briefing` are the outcomes of the external enhancement and
briefing collaborators, `Except.error` standing for a raised exception,
caught at lines 107-112 resp. 238-242.  `sys.exit(1)` at line 138 is the
only fatal path; afterwards standard stats are produced, the
enhanced-files key is added only for a non-empty enhancement result, the
briefing is appended on success, both snapshots are deduplicated, given
metrics and saved, and the stats mapping is sent to the Notifier. -/
def mainRun (us_data uk_data yesterday_us yesterday_uk : List RawRecord)
    (operators : List String) (importOk : Bool)
    (integrate : Except String (List (String × String)))
    (briefing : Except String String) : RunResult :=
  if us_data.isEmpty && uk_data.isEmpty then RunResult.fatal 1
  else
    let stats0 := process_data us_data uk_data yesterday_us yesterday_uk
      operators
    let enhanced_files := run_v35_enhancements importOk integrate
    let stats1 := if !enhanced_files.isEmpty
      then dictSet stats0 "enhanced_files" enhanced_files.length
      else stats0
    let combined := combinedBriefing us_data uk_data yesterday_us yesterday_uk
    let briefOk := if combined.isEmpty then false
      else
        match briefing with
        | Except.ok _ => true
        | Except.error _ => false
    let us_df := if us_data.isEmpty then []
      else calculate_metrics (dropDuplicatesByUrl us_data)
    let uk_df := if uk_data.isEmpty then []
      else calculate_metrics (dropDuplicatesByUrl uk_data)
    RunResult.completed
      { stats := stats1
        enhanced_files := enhanced_files
        briefingAppended := briefOk
        savedUS := us_df
        savedUK := uk_df
        notified := stats1 }

theorem dictGet_process_data_enhanced
    (us_data uk_data yesterday_us yesterday_uk : List RawRecord)
    (operators : List String) :
    dictGet (process_data us_data uk_data yesterday_us yesterday_uk
      operators) "enhanced_files" = none := by
  simp [process_data, dictGet]

theorem process_data_keys
    (us_data uk_data yesterday_us yesterday_uk : List RawRecord)
    (operators : List String) :
    ∀ p ∈ process_data us_data uk_data yesterday_us yesterday_uk operators,
      p.1 ≠ "enhanced_files" := by
  intro p hp
  simp only [process_data, List.mem_cons, List.not_mem_nil, or_false] at hp
  rcases hp with h | h | h | h | h | h <;> subst h <;> simp

theorem dictSet_eq_append {β : Type} (m : List (String × β)) (k : String)
    (v : β) (h : ∀ p ∈ m, p.1 ≠ k) : dictSet m k v = m ++ [(k, v)] := by
  unfold dictSet
  have hany : m.any (fun p => p.1 = k) = false := by
    rw [List.any_eq_false]
    intro p hp
    simpa using h p hp
  simp [hany]

theorem calculate_metrics_urls (rows : List RawRecord) :
    (calculate_metrics rows).map (fun p => p.1.webVideoUrl) = urls rows := by
  simp [calculate_metrics, urls, List.map_map]

theorem mainRun_not_fatal {us_data uk_data : List RawRecord}
    (hne : ¬(us_data = [] ∧ uk_data = []))
    (yesterday_us yesterday_uk : List RawRecord)
    (operators : List String) (importOk : Bool)
    (integrate : Except String (List (String × String)))
    (briefing : Except String String) :
    mainRun us_data uk_data yesterday_us yesterday_uk operators importOk
        integrate briefing
      = RunResult.completed
        { stats := if !(run_v35_enhancements importOk integrate).isEmpty
            then dictSet (process_data us_data uk_data yesterday_us
              yesterday_uk operators) "enhanced_files"
              (run_v35_enhancements importOk integrate).length
            else process_data us_data uk_data yesterday_us yesterday_uk
              operators
          enhanced_files := run_v35_enhancements importOk integrate
          briefingAppended := if (combinedBriefing us_data uk_data
              yesterday_us yesterday_uk).isEmpty then false
            else
              match briefing with
              | Except.ok _ => true
              | Except.error _ => false
          savedUS := if us_data.isEmpty then []
            else calculate_metrics (dropDuplicatesByUrl us_data)
          savedUK := if uk_data.isEmpty then []
            else calculate_metrics (dropDuplicatesByUrl uk_data)
          notified := if !(run_v35_enhancements importOk integrate).isEmpty
            then dictSet (process_data us_data uk_data yesterday_us
              yesterday_uk operators) "enhanced_files"
              (run_v35_enhancements importOk integrate).length
            else process_data us_data uk_data yesterday_us yesterday_uk
              operators } := by
  have hcond : (us_data.isEmpty && uk_data.isEmpty) = false := by
    cases us_data <;> cases uk_data <;> simp_all
  unfold mainRun
  rw [hcond]
  rfl

/-- C4: the run exits fatally (with code 1) iff the fetched data of both
markets is empty; in every other case it completes with outputs.  The
second conjunct records that no third outcome exists. -/
theorem fatal_iff_both_empty
    (us_data uk_data yesterday_us yesterday_uk : List RawRecord)
    (operators : List String) (importOk : Bool)
    (integrate : Except String (List (String × String)))
    (briefing : Except String String) :
    ((mainRun us_data uk_data yesterday_us yesterday_uk operators importOk
        integrate briefing = RunResult.fatal 1)
      ↔ (us_data = [] ∧ uk_data = [])) ∧
    ((mainRun us_data uk_data yesterday_us yesterday_uk operators importOk
        integrate briefing = RunResult.fatal 1) ∨
     (∃ out, mainRun us_data uk_data yesterday_us yesterday_uk operators
        importOk integrate briefing = RunResult.completed out)) := by
  by_cases h : us_data = [] ∧ uk_data = []
  · obtain ⟨h1, h2⟩ := h
    subst h1; subst h2
    constructor
    · simp [mainRun]
    · left; simp [mainRun]
  · rw [mainRun_not_fatal h]
    constructor
    · constructor
      · intro hc; exact absurd hc (by simp)
      · intro hc; exact absurd hc h
    · right; exact ⟨_, rfl⟩

/-- C5: when the enhancement stage fails — its module unavailable
(`importOk = false`) or the external analytics call raising — the failure
is absorbed at the stage boundary: the enhancement result is the empty
dict, the run still completes, both snapshots are still saved, and the
stats mapping handed to the Notifier is exactly the standard one, with no
`enhanced_files` key. -/
theorem enhancement_failure_contained
    (us_data uk_data yesterday_us yesterday_uk : List RawRecord)
    (operators : List String) (importOk : Bool)
    (integrate : Except String (List (String × String)))
    (briefing : Except String String)
    (hfail : importOk = false ∨ ∃ msg, integrate = Except.error msg)
    (hne : ¬(us_data = [] ∧ uk_data = [])) :
    ∃ out, mainRun us_data uk_data yesterday_us yesterday_uk operators
        importOk integrate briefing = RunResult.completed out ∧
      out.enhanced_files = [] ∧
      out.notified = process_data us_data uk_data yesterday_us yesterday_uk
        operators ∧
      dictGet out.notified "enhanced_files" = none ∧
      out.savedUS = (if us_data.isEmpty then []
        else calculate_metrics (dropDuplicatesByUrl us_data)) ∧
      out.savedUK = (if uk_data.isEmpty then []
        else calculate_metrics (dropDuplicatesByUrl uk_data)) := by
  have hef : run_v35_enhancements importOk integrate = [] := by
    rcases hfail with h | ⟨msg, h⟩
    · simp [run_v35_enhancements, h]
    · subst h
      cases importOk <;> simp [run_v35_enhancements]
  rw [mainRun_not_fatal hne]
  refine ⟨_, rfl, ?_, ?_, ?_, rfl, rfl⟩
  · exact hef
  · simp [hef]
  · simp [hef, dictGet_process_data_enhanced]

/-- Witness for C5 at a concrete input: the analytics call raising is
absorbed and the run completes with standard stats only. -/
theorem enhancement_failure_contained_witness :
    ∃ out, mainRun [sampleA] [] [] [] [] true (Except.error "boom")
        (Except.ok "brief") = RunResult.completed out ∧
      out.enhanced_files = [] ∧
      out.notified = process_data [sampleA] [] [] [] [] ∧
      dictGet out.notified "enhanced_files" = none ∧
      out.savedUS = (if ([sampleA] : List RawRecord).isEmpty then []
        else calculate_metrics (dropDuplicatesByUrl [sampleA])) ∧
      out.savedUK = (if ([] : List RawRecord).isEmpty then []
        else calculate_metrics (dropDuplicatesByUrl [])) :=
  enhancement_failure_contained [sampleA] [] [] [] [] true
    (Except.error "boom") (Except.ok "brief")
    (Or.inr ⟨"boom", rfl⟩) (by simp)

/-- C8: the only change the enhancement stage makes to the stats mapping:
an empty enhancement result leaves the mapping handed to the Notifier
exactly the one produced by standard processing; a non-empty result appends
the single key "enhanced_files" with the file dict's length, altering no
other entry. -/
theorem stats_frame_effect
    (us_data uk_data yesterday_us yesterday_uk : List RawRecord)
    (operators : List String) (importOk : Bool)
    (integrate : Except String (List (String × String)))
    (briefing : Except String String)
    (hne : ¬(us_data = [] ∧ uk_data = [])) :
    ∃ out, mainRun us_data uk_data yesterday_us yesterday_uk operators
        importOk integrate briefing = RunResult.completed out ∧
      (run_v35_enhancements importOk integrate = [] →
        out.notified = process_data us_data uk_data yesterday_us
          yesterday_uk operators) ∧
      (run_v35_enhancements importOk integrate ≠ [] →
        out.notified = process_data us_data uk_data yesterday_us
            yesterday_uk operators
          ++ [("enhanced_files",
                (run_v35_enhancements importOk integrate).length)]) := by
  rw [mainRun_not_fatal hne]
  refine ⟨_, rfl, fun hef => ?_, fun hef => ?_⟩
  · simp [hef]
  · have hne' : (run_v35_enhancements importOk integrate).isEmpty = false := by
      cases h : run_v35_enhancements importOk integrate with
      | nil => exact absurd h hef
      | cons a l => simp
    simp only [hne', Bool.not_false, if_pos]
    exact dictSet_eq_append _ _ _
      (process_data_keys us_data uk_data yesterday_us yesterday_uk operators)

/-- Witness for C8 at a concrete input: a one-file enhancement result
appends exactly the `enhanced_files ↦ 1` entry to the standard stats. -/
theorem stats_frame_effect_witness :
    ∃ out, mainRun [sampleA] [] [] [] [] true
        (Except.ok [("velocity", "f1")]) (Except.ok "brief")
          = RunResult.completed out ∧
      (run_v35_enhancements true (Except.ok [("velocity", "f1")]) = [] →
        out.notified = process_data [sampleA] [] [] [] []) ∧
      (run_v35_enhancements true (Except.ok [("velocity", "f1")]) ≠ [] →
        out.notified = process_data [sampleA] [] [] [] []
          ++ [("enhanced_files",
            (run_v35_enhancements true
              (Except.ok [("velocity", "f1")])).length)]) :=
  stats_frame_effect [sampleA] [] [] [] [] true
    (Except.ok [("velocity", "f1")]) (Except.ok "brief") (by simp)

/-- C10: on every non-fatal run — whatever the enhancement and briefing
outcomes, including failures — each non-empty market's data is deduplicated
by URL and given metrics, and exactly these snapshots are saved as
tomorrow's cache; each saved snapshot has at most one row per URL. -/
theorem cache_saved_deduped
    (us_data uk_data yesterday_us yesterday_uk : List RawRecord)
    (operators : List String) (importOk : Bool)
    (integrate : Except String (List (String × String)))
    (briefing : Except String String)
    (hne : ¬(us_data = [] ∧ uk_data = [])) :
    ∃ out, mainRun us_data uk_data yesterday_us yesterday_uk operators
        importOk integrate briefing = RunResult.completed out ∧
      out.savedUS = (if us_data.isEmpty then []
        else calculate_metrics (dropDuplicatesByUrl us_data)) ∧
      out.savedUK = (if uk_data.isEmpty then []
        else calculate_metrics (dropDuplicatesByUrl uk_data)) ∧
      (out.savedUS.map (fun p => p.1.webVideoUrl)).Nodup ∧
      (out.savedUK.map (fun p => p.1.webVideoUrl)).Nodup := by
  rw [mainRun_not_fatal hne]
  refine ⟨_, rfl, rfl, rfl, ?_, ?_⟩
  · by_cases h : us_data.isEmpty
    · simp [h]
    · have h' : us_data.isEmpty = false := by simpa using h
      simp only [h', Bool.false_eq_true, if_false]
      rw [calculate_metrics_urls]
      exact dropDupAux_urls_nodup us_data []
  · by_cases h : uk_data.isEmpty
    · simp [h]
    · have h' : uk_data.isEmpty = false := by simpa using h
      simp only [h', Bool.false_eq_true, if_false]
      rw [calculate_metrics_urls]
      exact dropDupAux_urls_nodup uk_data []

/-- Witness for C10 at a concrete input: duplicate URLs in the US input
collapse before the cache write even though enhancement and briefing both
fail. -/
theorem cache_saved_deduped_witness :
    ∃ out, mainRun [sampleA, sampleB] [] [] [] [] false
        (Except.error "enh") (Except.error "brief")
          = RunResult.completed out ∧
      out.savedUS = (if ([sampleA, sampleB] : List RawRecord).isEmpty then []
        else calculate_metrics (dropDuplicatesByUrl [sampleA, sampleB])) ∧
      out.savedUK = (if ([] : List RawRecord).isEmpty then []
        else calculate_metrics (dropDuplicatesByUrl [])) ∧
      (out.savedUS.map (fun p => p.1.webVideoUrl)).Nodup ∧
      (out.savedUK.map (fun p => p.1.webVideoUrl)).Nodup :=
  cache_saved_deduped [sampleA, sampleB] [] [] [] [] false
    (Except.error "enh") (Except.error "brief") (by simp)

theorem find?_append_left {α : Type} {l1 l2 : List α} {p : α → Bool} {a : α}
    (h : l1.find? p = some a) : (l1 ++ l2).find? p = some a := by
  induction l1 with
  | nil => simp [List.find?] at h
  | cons x xs ih =>
      cases hp : p x
      · rw [List.find?_cons_of_neg _ (by simp [hp])] at h
        rw [List.cons_append, List.find?_cons_of_neg _ (by simp [hp])]
        exact ih h
      · rw [List.find?_cons_of_pos _ hp] at h
        rw [List.cons_append, List.find?_cons_of_pos _ hp]
        exact h

theorem find?_url_of_mem : ∀ {l : List RawRecord} {u : String},
    u ∈ urls l → ∃ r0, l.find? (fun r => r.webVideoUrl == u) = some r0 := by
  intro l
  induction l with
  | nil => intro u hu; simp [urls] at hu
  | cons x xs ih =>
      intro u hu
      by_cases hx : (x.webVideoUrl == u) = true
      · exact ⟨x, List.find?_cons_of_pos _ hx⟩
      · have hu' : u ∈ urls xs := by
          simp only [urls, List.map_cons, List.mem_cons] at hu
          rcases hu with hu | hu
          · exact absurd (by simp [hu]) hx
          · exact hu
        obtain ⟨r0, hr0⟩ := ih hu'
        exact ⟨r0, by rw [List.find?_cons_of_neg _ (by simpa using hx)]; exact hr0⟩

theorem find?_of_nodup_urls : ∀ {l : List RawRecord} {r : RawRecord}
    {u : String}, (urls l).Nodup → r ∈ l → r.webVideoUrl = u →
    l.find? (fun x => x.webVideoUrl == u) = some r := by
  intro l
  induction l with
  | nil => intro r u _ hr; simp at hr
  | cons x xs ih =>
      intro r u hnd hr hru
      simp only [urls, List.map_cons, List.nodup_cons] at hnd
      rcases List.mem_cons.mp hr with hr | hr
      · subst hr
        exact List.find?_cons_of_pos _ (by simp [hru])
      · by_cases hx : (x.webVideoUrl == u) = true
        · exfalso
          have hxu : x.webVideoUrl = u := by simpa using hx
          apply hnd.1
          rw [hxu]
          have : u ∈ urls xs := by
            simp only [urls, List.mem_map]
            exact ⟨r, hr, hru⟩
          exact this
        · rw [List.find?_cons_of_neg _ (by simpa using hx)]
          exact ih hnd.2 hr hru

theorem mem_combinedBriefing
    {us_data uk_data yesterday_us yesterday_uk : List RawRecord}
    {c : CombinedRecord}
    (h : c ∈ combinedBriefing us_data uk_data yesterday_us yesterday_uk) :
    c.post ∈ dropDuplicatesByUrl (us_data ++ uk_data) ∧
    c = combinedRecord (urls us_data) (urls uk_data)
          (yesterday_us ++ yesterday_uk) c.post := by
  unfold combinedBriefing at h
  by_cases hc : (us_data ++ uk_data).isEmpty
  · simp [hc] at h
  · have hc' : (us_data ++ uk_data).isEmpty = false := by simpa using hc
    simp only [hc', Bool.false_eq_true, if_false, List.mem_map] at h
    obtain ⟨r0, hr0, he⟩ := h
    subst he
    exact ⟨hr0, rfl⟩

/-- C9: in the combined briefing frame, a URL present in both markets' raw
data has exactly one row, and that row's record is the first US record for
the URL: the US data is concatenated first and deduplication keeps the
first occurrence. -/
theorem combined_briefing_us_wins
    (us_data uk_data yesterday_us yesterday_uk : List RawRecord)
    (u : String) (hus : u ∈ urls us_data) (_huk : u ∈ urls uk_data) :
    (combinedBriefing us_data uk_data yesterday_us yesterday_uk).countP
        (fun c => c.post.webVideoUrl == u) = 1 ∧
    ∃ r0, us_data.find? (fun r => r.webVideoUrl == u) = some r0 ∧
      ∀ c ∈ combinedBriefing us_data uk_data yesterday_us yesterday_uk,
        c.post.webVideoUrl = u → c.post = r0 := by
  have hcomb : (us_data ++ uk_data).isEmpty = false := by
    cases us_data with
    | nil => simp [urls] at hus
    | cons a l => simp
  have humem : u ∈ urls (dropDuplicatesByUrl (us_data ++ uk_data)) := by
    rw [dropDuplicatesByUrl, dropDupAux_urls_mem]
    refine ⟨?_, by simp⟩
    simp only [urls, List.map_append, List.mem_append] at hus ⊢
    exact Or.inl hus
  obtain ⟨r0, hr0⟩ := find?_url_of_mem hus
  constructor
  · unfold combinedBriefing
    simp only [hcomb, Bool.false_eq_true, if_false]
    rw [List.countP_map]
    have hpred : ((fun c : CombinedRecord => c.post.webVideoUrl == u) ∘
        combinedRecord (urls us_data) (urls uk_data)
          (yesterday_us ++ yesterday_uk))
        = fun r : RawRecord => r.webVideoUrl == u := rfl
    rw [hpred, countP_url_eq_count]
    exact List.count_eq_one_of_mem
      (dropDupAux_urls_nodup (us_data ++ uk_data) []) humem
  · refine ⟨r0, hr0, fun c hc hcu => ?_⟩
    obtain ⟨hmem, -⟩ := mem_combinedBriefing hc
    have h1 : (dropDuplicatesByUrl (us_data ++ uk_data)).find?
        (fun x => x.webVideoUrl == u) = some c.post :=
      find?_of_nodup_urls (dropDupAux_urls_nodup (us_data ++ uk_data) [])
        hmem hcu
    have h2 : (dropDuplicatesByUrl (us_data ++ uk_data)).find?
        (fun x => x.webVideoUrl == u) = some r0 := by
      rw [dropDuplicatesByUrl, dropDupAux_find? _ _ _ (by simp)]
      exact find?_append_left hr0
    rw [h1] at h2
    exact (Option.some.injEq _ _ ▸ h2)

/-- Witness for C9 at a concrete input: URL "u1" appears in both markets;
the combined frame keeps one row for it, carrying the US record
`sampleA`. -/
theorem combined_briefing_us_wins_witness :
    (combinedBriefing [sampleA] [sampleB] [] []).countP
        (fun c => c.post.webVideoUrl == "u1") = 1 ∧
    ∃ r0, ([sampleA] : List RawRecord).find?
        (fun r => r.webVideoUrl == "u1") = some r0 ∧
      ∀ c ∈ combinedBriefing [sampleA] [sampleB] [] [],
        c.post.webVideoUrl = "u1" → c.post = r0 :=
  combined_briefing_us_wins [sampleA] [sampleB] [] [] "u1"
    (by simp [urls, sampleA]) (by simp [urls, sampleB])

end TTPipeline
